import Mathlib

/-!
Verification development for the package-scanner repository.

The Go sources are shallowly embedded here: strings are `List Char`,
`error` returns are `Except (List Char)`, and the anchored regular
expressions used by the filename parsers are embedded as deterministic
matchers (the patterns involved have no backtracking ambiguity, so the
greedy matcher computes exactly the RE2 match).

Embedded components:
  * pkg/scanner (filename parsing, ecosystem table, directory walk)
  * pkg/scanner/controller.go (persistence policy, worker pool)
  * pkg/osv helpers (ExtractCVSSScore, GetSeverityRating)
-/

/-! ### Basic string helpers (Go strings.* equivalents) -/

/-- Lowercase every character, as Go strings.ToLower does for ASCII input. -/
def toLowerL (l : List Char) : List Char := l.map Char.toLower

/-- Uppercase every character, as Go strings.ToUpper does for ASCII input. -/
def toUpperL (l : List Char) : List Char := l.map Char.toUpper

/-- Go strings.TrimSuffix: remove `suf` when it ends `l`, else return `l`. -/
def trimSuffix (l suf : List Char) : List Char :=
  if suf <:+ l then l.take (l.length - suf.length) else l

/-- Go strings.TrimPrefix: remove `pre` when it starts `l`, else return `l`. -/
def trimPrefixL (l pre : List Char) : List Char :=
  if pre <+: l then l.drop pre.length else l

/-- Go strings.Split with a single-character separator.
Always returns a non-empty list; Split("", sep) = [""] as in Go. -/
def splitOnChar (sep : Char) : List Char → List (List Char)
  | [] => [[]]
  | c :: rest =>
    let r := splitOnChar sep rest
    if c = sep then [] :: r
    else
      match r with
      | [] => [[c]]
      | h :: t => (c :: h) :: t

/-- Split at the first occurrence of `sep` (Go strings.SplitN with n = 2):
`none` when `sep` does not occur. -/
def splitFirst (sep : Char) : List Char → Option (List Char × List Char)
  | [] => none
  | c :: r =>
    if c = sep then some ([], r)
    else (splitFirst sep r).map (fun p => (c :: p.1, p.2))

/-- Go strings.Join with a single-character separator. -/
def joinWith (sep : Char) : List (List Char) → List Char
  | [] => []
  | [x] => x
  | x :: y :: rest => x ++ sep :: joinWith sep (y :: rest)

/-- Join period-delimited segments (strings.Join(parts, ".")). -/
def joinSegs (ls : List (List Char)) : List Char := joinWith '.' ls

/-- Index of the last occurrence of a character (Go strings.LastIndex with a
one-character needle), `none` when absent. -/
def lastIndexOf (c : Char) : List Char → Option Nat
  | [] => none
  | a :: r =>
    match lastIndexOf c r with
    | some i => some (i + 1)
    | none => if a = c then some 0 else none

/-- Non-overlapping substring count for the non-empty pattern `p :: pr`
(Go strings.Count semantics): after a hit, scanning resumes past the
occurrence.  The fuel argument only makes the recursion structural; any
fuel at least the length of the scanned list gives the same answer. -/
def countSubF (p : Char) (pr : List Char) : Nat → List Char → Nat
  | 0, _ => 0
  | _ + 1, [] => 0
  | f + 1, c :: rest =>
    if (p :: pr) <+: (c :: rest) then 1 + countSubF p pr f (rest.drop pr.length)
    else countSubF p pr f rest

/-- Go strings.Count (our patterns are always non-empty; the empty-pattern
case follows Go's rune-count-plus-one convention). -/
def countSub (s pat : List Char) : Nat :=
  match pat with
  | [] => s.length + 1
  | p :: pr => countSubF p pr s.length s

/-! ### Regular-expression matchers

The Go code uses four anchored patterns.  Each is embedded as a
deterministic greedy matcher; greediness is equivalent to RE2 semantics
here because every quantified piece is followed by a character it cannot
itself consume further. -/

/-- Character class [a-zA-Z0-9.-] used by the prerelease parts. -/
def isPreChar (c : Char) : Bool := c.isAlpha || c.isDigit || c = '.' || c = '-'

/-- The `\d+(\.\d+)+` core of the NuGet version pattern: at least two
period-delimited segments, each a non-empty digit run. -/
def versionCore (m : List Char) : Bool :=
  let segs := splitOnChar '.' m
  2 ≤ segs.length && segs.all (fun d => !d.isEmpty && d.all Char.isDigit)

/-- The NuGet version pattern `^\d+(\.\d+)+(-[a-zA-Z0-9.-]+)?$` (regexp in
parseNuGetPackage).  The digit-and-dot core can contain no hyphen, so a
string is in the pattern's language exactly when the part before its first
hyphen (or the whole string, if hyphen-free) is `\d+(\.\d+)+` and the part
after that hyphen, when present, is a non-empty `[a-zA-Z0-9.-]` run. -/
def versionRegexL (l : List Char) : Bool :=
  match splitFirst '-' l with
  | none => versionCore l
  | some mp => versionCore mp.1 && !mp.2.isEmpty && mp.2.all isPreChar

/-- `^\d+` (the lenient fallback regexp in parseNuGetPackage). -/
def startsWithDigit : List Char → Bool
  | [] => false
  | c :: _ => c.isDigit

/-- Full match of `\d+\.\d+\.\d+(-[a-zA-Z0-9.-]+)?` against the whole list:
the npm pattern `-(...)$` matches at a hyphen exactly when the rest of the
string satisfies this. -/
def npmTail (l : List Char) : Bool :=
  let d1 := l.takeWhile Char.isDigit
  let r1 := l.dropWhile Char.isDigit
  if d1.isEmpty then false
  else
    match r1 with
    | '.' :: r2 =>
      let d2 := r2.takeWhile Char.isDigit
      let r3 := r2.dropWhile Char.isDigit
      if d2.isEmpty then false
      else
        match r3 with
        | '.' :: r4 =>
          let d3 := r4.takeWhile Char.isDigit
          let r5 := r4.dropWhile Char.isDigit
          if d3.isEmpty then false
          else
            match r5 with
            | [] => true
            | '-' :: p => !p.isEmpty && p.all isPreChar
            | _ => false
        | _ => false
    | _ => false

/-- Greedy match of `\d+\.\d+(\.\d+)?(-[a-zA-Z0-9.-]+)?` (the Java pattern
without its leading hyphen) at the start of `l`; returns the matched text.
The pattern is unanchored on the right, so a partial consume succeeds. -/
def javaMatchAt (l : List Char) : Option (List Char) :=
  let d1 := l.takeWhile Char.isDigit
  let r1 := l.dropWhile Char.isDigit
  if d1.isEmpty then none
  else
    match r1 with
    | '.' :: r2 =>
      let d2 := r2.takeWhile Char.isDigit
      let r3 := r2.dropWhile Char.isDigit
      if d2.isEmpty then none
      else
        let s3 : List Char × List Char :=
          match r3 with
          | '.' :: r4 =>
            let d3 := r4.takeWhile Char.isDigit
            if d3.isEmpty then ([], r3) else ('.' :: d3, r4.dropWhile Char.isDigit)
          | _ => ([], r3)
        let s4 : List Char :=
          match s3.2 with
          | '-' :: r5 =>
            let p := r5.takeWhile isPreChar
            if p.isEmpty then [] else '-' :: p
          | _ => []
        some (d1 ++ '.' :: d2 ++ s3.1 ++ s4)
    | _ => none

/-- Leftmost occurrence of the Java pattern `-(\d+\.\d+(\.\d+)?(-pre)?)`
(regexp.FindStringSubmatch): scan left to right for a hyphen whose tail
starts with a match, returning capture group 1. -/
def javaFind : List Char → Option (List Char)
  | [] => none
  | c :: rest =>
    if c = '-' then
      match javaMatchAt rest with
      | some v => some v
      | none => javaFind rest
    else javaFind rest

/-- Leftmost match of the end-anchored npm pattern
`-(\d+\.\d+\.\d+(-[a-zA-Z0-9.-]+)?)$`: since the pattern is anchored at the
end, a match at a hyphen captures the entire remaining string. -/
def npmFindVersion : List Char → Option (List Char)
  | [] => none
  | c :: rest =>
    if c = '-' && npmTail rest then some rest
    else npmFindVersion rest

/-- Full match of `\d+\.\d+(\.\d+)?(-[a-zA-Z0-9.-]+)?` against the whole
list (used for the end-anchored generic pattern). -/
def genericTailMatch (l : List Char) : Bool :=
  let d1 := l.takeWhile Char.isDigit
  let r1 := l.dropWhile Char.isDigit
  if d1.isEmpty then false
  else
    match r1 with
    | '.' :: r2 =>
      let d2 := r2.takeWhile Char.isDigit
      let r3 := r2.dropWhile Char.isDigit
      if d2.isEmpty then false
      else
        let r4 : List Char :=
          match r3 with
          | '.' :: r4' =>
            if (r4'.takeWhile Char.isDigit).isEmpty then r3
            else r4'.dropWhile Char.isDigit
          | _ => r3
        match r4 with
        | [] => true
        | '-' :: p => !p.isEmpty && p.all isPreChar
        | _ => false
    | _ => false

/-- MatchString for `(\d+\.\d+(\.\d+)?(-[a-zA-Z0-9.-]+)?)$`: some suffix of
`l` fully matches the group (the pattern is only right-anchored). -/
def genericHasMatch : List Char → Bool
  | [] => false
  | c :: r => genericTailMatch (c :: r) || genericHasMatch r

/-! ### pkg/scanner: data model and filename parsers
(src/unnamed/part_005, the snapshot cited by the claims, lines 397-728). -/

/-- PackageInfo (scanner.PackageInfo). -/
structure PackageInfo where
  Name : List Char
  Version : List Char
  Ecosystem : List Char
deriving DecidableEq, Repr

/-- PackageScanner (scanner.PackageScanner; the logger field is omitted:
logging is modelled by the warning list returned by ScanDirectory). -/
structure PackageScanner where
  FileExtension : List Char
  Ecosystem : List Char
deriving DecidableEq, Repr

/-- The scan loop of parseNuGetPackage: iterate i = m-1, m-2, ..., 0 over
`parts`, carrying versionStartIndex; a matching trailing join records i,
and the first non-match after a recorded match breaks out of the loop. -/
def nugetScan (parts : List (List Char)) : Nat → Option Nat → Option Nat
  | 0, vsi => vsi
  | j + 1, vsi =>
    if versionRegexL (joinSegs (parts.drop j)) then nugetScan parts j (some j)
    else
      match vsi with
      | some v => some v
      | none => nugetScan parts j none

/-- The lenient fallback of parseNuGetPackage: rightmost part matching
`^\d+` (iterating i = m-1 downto 0 with break on first hit). -/
def digitStartScan (parts : List (List Char)) : Nat → Option Nat
  | 0 => none
  | j + 1 =>
    if startsWithDigit (parts.getD j []) then some j
    else digitStartScan parts j

/-- parseNuGetPackage: extension strip, dot split, backwards scan for the
longest consecutive run of version-like trailing joins, with the lenient
digit-start fallback; only fewer than two parts is an error. -/
def parseNuGetPackage (filename : List Char) : Except (List Char) (List Char × List Char) :=
  let base := trimSuffix (trimSuffix filename (".nupkg".data)) (".NUPKG".data)
  let parts := splitOnChar '.' base
  if parts.length < 2 then
    .error ("invalid NuGet package filename format: ".data ++ filename)
  else
    let vsi :=
      match nugetScan parts parts.length none with
      | some i => i
      | none =>
        match digitStartScan parts parts.length with
        | some i => i
        | none => parts.length - 1
    .ok (joinSegs (parts.take vsi), joinSegs (parts.drop vsi))

/-- parseNpmPackage: strip .tgz/.TGZ then .tar.gz/.TAR.GZ, find the
end-anchored `-(\d+\.\d+\.\d+(-pre)?)$` match, name is the base with the
hyphen-version suffix trimmed. -/
def parseNpmPackage (filename : List Char) : Except (List Char) (List Char × List Char) :=
  let base := trimSuffix (trimSuffix filename (".tgz".data)) (".TGZ".data)
  let base := trimSuffix (trimSuffix base (".tar.gz".data)) (".TAR.GZ".data)
  match npmFindVersion base with
  | none => .error ("could not extract version from npm package: ".data ++ filename)
  | some version => .ok (trimSuffix base ('-' :: version), version)

/-- parsePythonPackage: strip .whl/.WHL/.egg/.EGG, split on the first
hyphen, and the version is the first hyphen-delimited segment of the
remainder. -/
def parsePythonPackage (filename : List Char) : Except (List Char) (List Char × List Char) :=
  let base := trimSuffix (trimSuffix filename (".whl".data)) (".WHL".data)
  let base := trimSuffix (trimSuffix base (".egg".data)) (".EGG".data)
  match splitFirst '-' base with
  | none => .error ("invalid Python package filename: ".data ++ filename)
  | some nv =>
    let version :=
      match splitFirst '-' nv.2 with
      | none => nv.2
      | some vp => vp.1
    .ok (nv.1, version)

/-- parseJavaPackage: strip .jar/.JAR, take the leftmost match of
`-(\d+\.\d+(\.\d+)?(-pre)?)` as version, and trim "-version" off the end
of the base (a no-op when the match is not a suffix). -/
def parseJavaPackage (filename : List Char) : Except (List Char) (List Char × List Char) :=
  let base := trimSuffix (trimSuffix filename (".jar".data)) (".JAR".data)
  match javaFind base with
  | none => .error ("could not extract version from Java package: ".data ++ filename)
  | some version => .ok (trimSuffix base ('-' :: version), version)

/-- One separator attempt of parseGenericPackage: split on `sep`, and when
there are at least two parts whose last matches the loose version pattern,
return (join of the initial parts, last part). -/
def genericTrySep (sep : Char) (base : List Char) : Option (List Char × List Char) :=
  let parts := splitOnChar sep base
  if 2 ≤ parts.length then
    let lastPart := (parts.getLast?).getD []
    if genericHasMatch lastPart then some (joinWith sep parts.dropLast, lastPart)
    else none
  else none

/-- parseGenericPackage: drop the final extension (last dot located on the
lowercased name), then try separators -, _, . in order. -/
def parseGenericPackage (filename : List Char) : Except (List Char) (List Char × List Char) :=
  match lastIndexOf '.' (toLowerL filename) with
  | none => .error ("filename has no extension: ".data ++ filename)
  | some i =>
    let base := filename.take i
    match genericTrySep '-' base with
    | some nv => .ok nv
    | none =>
      match genericTrySep '_' base with
      | some nv => .ok nv
      | none =>
        match genericTrySep '.' base with
        | some nv => .ok nv
        | none =>
          .error ("could not extract package name and version from: ".data ++ filename)

/-- determineEcosystem: fixed extension -> ecosystem table. -/
def determineEcosystem (extension : List Char) : List Char :=
  let e := toLowerL extension
  if e = "nupkg".data then "NuGet".data
  else if e = "tgz".data ∨ e = "tar.gz".data then "npm".data
  else if e = "whl".data ∨ e = "egg".data then "PyPI".data
  else if e = "jar".data then "Maven".data
  else if e = "gem".data then "RubyGems".data
  else if e = "deb".data then "Debian".data
  else if e = "rpm".data then "RPM".data
  else "Unknown".data

/-- NewPackageScanner: trim a leading dot off the extension and derive the
ecosystem from the table only when no hint is supplied. -/
def NewPackageScanner (extension ecosystem : List Char) : PackageScanner :=
  let extension := trimPrefixL extension (".".data)
  let ecosystem := if ecosystem = [] then determineEcosystem extension else ecosystem
  { FileExtension := extension, Ecosystem := ecosystem }

/-- The switch of ExtractPackageInfo: the parsing strategy chosen by the
lowercased configured extension. -/
def parserFor (e : List Char) : List Char → Except (List Char) (List Char × List Char) :=
  if e = "nupkg".data then parseNuGetPackage
  else if e = "tgz".data ∨ e = "tar.gz".data then parseNpmPackage
  else if e = "whl".data ∨ e = "egg".data then parsePythonPackage
  else if e = "jar".data then parseJavaPackage
  else parseGenericPackage

/-- ExtractPackageInfo: dispatch on the lowercased configured extension and
stamp the scanner's ecosystem on the parsed name/version. -/
def ExtractPackageInfo (ps : PackageScanner) (filename : List Char) :
    Except (List Char) PackageInfo :=
  (parserFor (toLowerL ps.FileExtension) filename).map fun nv =>
    { Name := nv.1, Version := nv.2, Ecosystem := ps.Ecosystem }

/-! ### pkg/scanner: directory walk -/

/-- One file-system entry seen by filepath.WalkDir, in traversal order. -/
structure DirEntry where
  name : List Char
  isDir : Bool
deriving DecidableEq, Repr

/-- The case-insensitive extension filter of ScanDirectory:
strings.HasSuffix(strings.ToLower(name), "." + strings.ToLower(ext)). -/
def suffixAccept (ext nm : List Char) : Bool :=
  decide (('.' :: toLowerL ext) <:+ toLowerL nm)

/-- The WalkDir callback body of ScanDirectory folded over the entries:
directories and non-matching names are skipped, parse failures are
recorded as warnings (logger.Warn) and skipped, successes are collected in
order. -/
def scanEntries (ps : PackageScanner) : List DirEntry → List PackageInfo × List (List Char)
  | [] => ([], [])
  | e :: rest =>
    let r := scanEntries ps rest
    if e.isDir then r
    else if suffixAccept ps.FileExtension e.name then
      match ExtractPackageInfo ps e.name with
      | .ok pkg => (pkg :: r.1, r.2)
      | .error _ => (r.1, e.name :: r.2)
    else r

/-- The os.Stat outcome for the root path: missing, a plain file, or a
directory whose recursive walk yields the given entries. -/
inductive RootStat where
  | missing
  | file
  | dir (entries : List DirEntry)

/-- ScanDirectory: fail fast when the root is missing or not a directory,
otherwise walk the entries; the second component of the result models the
per-file warnings logged for unparseable names. -/
def ScanDirectory (ps : PackageScanner) : RootStat →
    Except (List Char) (List PackageInfo × List (List Char))
  | .missing => .error ("error accessing directory".data)
  | .file => .error ("is not a directory".data)
  | .dir entries => .ok (scanEntries ps entries)

/-! ### pkg/osv helpers: severity derivation
(ExtractCVSSScore and GetSeverityRating in the osv package). -/

/-- One entry of a vulnerability's severity list (models.Severity): a type
tag such as "CVSS_V3" and a score string (the CVSS vector). -/
structure SeverityEntry where
  sevType : List Char
  score : List Char
deriving DecidableEq, Repr

/-- The database_specific part of a vulnerability, of which only the
textual severity label is consumed. -/
structure DBSpecificInfo where
  severity : List Char
deriving DecidableEq, Repr

/-- The part of models.Vulnerability consumed by GetSeverityRating. -/
structure Vulnerability where
  severity : List SeverityEntry
  dbSpecific : DBSpecificInfo
deriving DecidableEq, Repr

/-- fmt.Sprintf("%.1f/10", score) for the achievable scores: the weighted
count sum is always a whole number, so the float64 renders as "n.0". -/
def fmtScore (n : Nat) : List Char := (Nat.repr n).data ++ ".0/10".data

/-- ExtractCVSSScore: the heuristic token-count score.  The empty string
yields "N/A"; the parts-length guard is kept from the source even though
strings.Split never returns an empty slice. -/
def ExtractCVSSScore (cvssString : List Char) : List Char :=
  if cvssString.length = 0 then "N/A".data
  else
    let parts := splitOnChar '/' cvssString
    if parts.length < 1 then "N/A".data
    else
      let highCount := countSub cvssString (":H".data)
      let mediumCount := countSub cvssString (":M".data)
      let lowCount := countSub cvssString (":L".data)
      let score := 3 * highCount + 2 * mediumCount + 1 * lowCount
      let capped := if 10 < score then 10 else score
      fmtScore capped

/-- The severity-list loop of GetSeverityRating: return the score of the
first entry whose type is "CVSS_V3". -/
def findCVSS : List SeverityEntry → Option (List Char)
  | [] => none
  | s :: rest => if s.sevType = "CVSS_V3".data then some s.score else findCVSS rest

/-- GetSeverityRating: prefer the first CVSS_V3 vector; otherwise bucket
the uppercased database_specific label; otherwise "Unknown". -/
def GetSeverityRating (vuln : Vulnerability) : List Char :=
  match findCVSS vuln.severity with
  | some sc => ExtractCVSSScore sc
  | none =>
    if vuln.dbSpecific.severity ≠ [] then
      let up := toUpperL vuln.dbSpecific.severity
      if up = "CRITICAL".data then "9.0+/10".data
      else if up = "HIGH".data then "7.0-8.9/10".data
      else if up = "MEDIUM".data then "4.0-6.9/10".data
      else if up = "LOW".data then "0.1-3.9/10".data
      else "Unknown".data
    else "Unknown".data

/-! ### pkg/scanner/controller.go: persistence policy -/

/-- The externally observable collaborator calls made while handling one
package's scan outcome. -/
inductive ScanAction where
  | displayScanStart
  | displayResults
  | saveDB
  | displayDBSaveError
  | displayDBSavedInfo
  | displayNoVulnsInfo
  | displayLookupError
  | writeResponseFile
deriving DecidableEq, Repr

/-- The worker body of runDirectoryScan (controller.go lines 162-191) for
one package: a lookup error reports and returns; otherwise results are
displayed and the outcome is saved exactly when UseDB is set, a database
instance exists, and at least one vulnerability was returned.  `saveOk`
is the result of the SaveVulnerabilityResults call. -/
def processPackage (useDB dbPresent : Bool)
    (lookup : Except (List Char) (List Vulnerability)) (saveOk : Bool) : List ScanAction :=
  ScanAction.displayScanStart ::
    match lookup with
    | .error _ => [ScanAction.displayLookupError]
    | .ok vulns =>
      ScanAction.displayResults ::
        (if useDB && dbPresent && decide (0 < vulns.length) then
          ScanAction.saveDB ::
            (if saveOk then [ScanAction.displayDBSavedInfo] else [ScanAction.displayDBSaveError])
        else if useDB && decide (vulns.length = 0) then [ScanAction.displayNoVulnsInfo]
        else [])

/-- runSinglePackageScan (controller.go lines 81-131).  os.Exit(1) on a
lookup or save error truncates the action list; the raw-response file
write happens on every non-exiting path. -/
def runSinglePackageScanActions (useDB dbPresent : Bool)
    (lookup : Except (List Char) (List Vulnerability)) (saveOk : Bool) : List ScanAction :=
  ScanAction.displayScanStart ::
    match lookup with
    | .error _ => [ScanAction.displayLookupError]
    | .ok vulns =>
      ScanAction.displayResults ::
        (if useDB && dbPresent && decide (0 < vulns.length) then
          ScanAction.saveDB ::
            (if saveOk then [ScanAction.displayDBSavedInfo, ScanAction.writeResponseFile]
             else [ScanAction.displayDBSaveError])
        else if useDB && decide (vulns.length = 0) then
          [ScanAction.displayNoVulnsInfo, ScanAction.writeResponseFile]
        else [ScanAction.writeResponseFile])

/-- The database-related state of a Controller. -/
structure ControllerModel where
  useDB : Bool
  dbPresent : Bool
deriving DecidableEq, Repr

/-- NewController (controller.go lines 24-61): when UseDB is requested the
controller either connects (dbInstance non-nil) or the process exits
(modelled as `none`); without UseDB no instance is created. -/
def NewController (useDB dbConnectOk : Bool) : Option ControllerModel :=
  if useDB then
    if dbConnectOk then some { useDB := true, dbPresent := true } else none
  else some { useDB := false, dbPresent := false }

/-! ### pkg/scanner/controller.go: bounded-concurrency batch

runDirectoryScan admits workers through a buffered channel of capacity C
(`sem <- true` before go, `<-sem` deferred in the worker) and joins them
with a WaitGroup before printing the summary.  The observable events are
modelled as a labelled transition system: `dispatch` is a successful
channel send (possible only while fewer than C workers hold a slot),
`finish` is a worker releasing its slot after completing (successfully or
not), and `summarize` is the post-Wait summary (possible only when the
loop has dispatched everything and every worker has finished). -/

/-- Scheduler state of one directory-scan batch. -/
structure BatchState where
  toDispatch : Nat
  inFlight : Nat
  done : Nat
  summaried : Bool
deriving DecidableEq, Repr

/-- One scheduler step of the batch with concurrency cap C. -/
inductive BatchStep (C : Nat) : BatchState → BatchState → Prop
  | dispatch (t f d : Nat) : f < C →
      BatchStep C ⟨t + 1, f, d, false⟩ ⟨t, f + 1, d, false⟩
  | finish (t f d : Nat) :
      BatchStep C ⟨t, f + 1, d, false⟩ ⟨t, f, d + 1, false⟩
  | summarize (d : Nat) :
      BatchStep C ⟨0, 0, d, false⟩ ⟨0, 0, d, true⟩

/-- States reachable by a batch of N packages under concurrency cap C. -/
def BatchReachable (C N : Nat) (s : BatchState) : Prop :=
  Relation.ReflTransGen (BatchStep C) ⟨N, 0, 0, false⟩ s

/-! ### Infrastructure lemmas -/

/-- TrimSuffix removes an actual suffix. -/
theorem trimSuffix_append (x s : List Char) : trimSuffix (x ++ s) s = x := by
  unfold trimSuffix
  rw [if_pos ⟨x, rfl⟩]
  simp

/-- TrimSuffix is the identity when the suffix is absent. -/
theorem trimSuffix_of_not_suffix {l s : List Char} (h : ¬ s <:+ l) :
    trimSuffix l s = l := by
  unfold trimSuffix
  rw [if_neg h]

/-- A non-empty suffix determines the last element. -/
theorem suffix_getLast {s l : List Char} (h : s <:+ l) (hs : s ≠ []) :
    l.getLast? = s.getLast? := by
  rcases h with ⟨t, rfl⟩
  exact List.getLast?_append_of_ne_nil t hs

/-- Splitting a separator-free string returns the whole string. -/
theorem splitOnChar_sepfree {sep : Char} {x : List Char} (h : ∀ c ∈ x, c ≠ sep) :
    splitOnChar sep x = [x] := by
  induction x with
  | nil => rfl
  | cons c r ih =>
    have hc : c ≠ sep := h c (by simp)
    have hr := ih (fun a ha => h a (by simp [ha]))
    simp [splitOnChar, hc, hr]

/-- Splitting past a separator-free head. -/
theorem splitOnChar_append_sep {sep : Char} {x t : List Char} (h : ∀ c ∈ x, c ≠ sep) :
    splitOnChar sep (x ++ sep :: t) = x :: splitOnChar sep t := by
  induction x with
  | nil => simp [splitOnChar]
  | cons c r ih =>
    have hc : c ≠ sep := h c (by simp)
    have hr := ih (fun a ha => h a (by simp [ha]))
    simp only [List.cons_append, splitOnChar, hr]
    simp [hc, hr]

/-- Splitting inverts joining for separator-free, non-empty part lists. -/
theorem splitOnChar_join {sep : Char} {parts : List (List Char)}
    (hne : parts ≠ []) (h : ∀ p ∈ parts, ∀ c ∈ p, c ≠ sep) :
    splitOnChar sep (joinWith sep parts) = parts := by
  induction parts with
  | nil => exact absurd rfl hne
  | cons x rest ih =>
    cases rest with
    | nil =>
      simp only [joinWith]
      exact splitOnChar_sepfree (h x (by simp))
    | cons y more =>
      simp only [joinWith]
      rw [splitOnChar_append_sep (h x (by simp))]
      rw [ih (by simp) (fun p hp c hc => h p (by simp [hp]) c hc)]

/-- Every character of a join is the separator or from some part. -/
theorem mem_joinWith {sep : Char} {parts : List (List Char)} {c : Char}
    (h : c ∈ joinWith sep parts) : c = sep ∨ ∃ p ∈ parts, c ∈ p := by
  induction parts with
  | nil => simp [joinWith] at h
  | cons x rest ih =>
    cases rest with
    | nil =>
      simp only [joinWith] at h
      exact Or.inr ⟨x, by simp, h⟩
    | cons y more =>
      simp only [joinWith, List.mem_append, List.mem_cons] at h
      rcases h with hx | hc | hm
      · exact Or.inr ⟨x, by simp, hx⟩
      · exact Or.inl hc
      · rcases ih hm with hsep | ⟨p, hp, hcp⟩
        · exact Or.inl hsep
        · exact Or.inr ⟨p, by simp [hp], hcp⟩

/-- splitFirst finds nothing in separator-free strings. -/
theorem splitFirst_eq_none {sep : Char} {l : List Char} (h : ∀ c ∈ l, c ≠ sep) :
    splitFirst sep l = none := by
  induction l with
  | nil => rfl
  | cons c r ih =>
    have hc : c ≠ sep := h c (by simp)
    simp [splitFirst, hc, ih (fun a ha => h a (by simp [ha]))]

/-- Dropping a prefix plus an offset. -/
theorem drop_append_len {α : Type} (l1 l2 : List α) (n : Nat) :
    (l1 ++ l2).drop (l1.length + n) = l2.drop n := by
  induction l1 with
  | nil => simp
  | cons c r ih => simp [Nat.succ_add, ih]

/-- Joining with one extra trailing part. -/
theorem joinWith_append_single (sep : Char) (xs : List (List Char)) (y : List Char)
    (h : xs ≠ []) : joinWith sep (xs ++ [y]) = joinWith sep xs ++ sep :: y := by
  induction xs with
  | nil => exact absurd rfl h
  | cons x rest ih =>
    cases rest with
    | nil => simp [joinWith]
    | cons z more =>
      have ih' := ih (by simp)
      simp only [List.cons_append] at ih' ⊢
      simp only [joinWith] at ih' ⊢
      rw [ih']
      simp

/-- A plain digit run is not in the NuGet version pattern's language
(the pattern insists on at least one dot). -/
theorem versionRegexL_digits_false {d : List Char} (hd : ∀ c ∈ d, c.isDigit = true) :
    versionRegexL d = false := by
  have hnd : ∀ c ∈ d, c ≠ '-' := by
    intro c hc heq
    have h := hd c hc
    rw [heq] at h
    exact absurd h (by decide)
  have hdot : ∀ c ∈ d, c ≠ '.' := by
    intro c hc heq
    have h := hd c hc
    rw [heq] at h
    exact absurd h (by decide)
  have h1 : splitFirst '-' d = none := splitFirst_eq_none hnd
  have h2 : splitOnChar '.' d = [d] := splitOnChar_sepfree hdot
  unfold versionRegexL versionCore
  rw [h1]
  simp [h2]

/-- A join of two or more non-empty digit runs is in the NuGet version
pattern's language. -/
theorem versionRegexL_join_digits {ds : List (List Char)} (h2 : 2 ≤ ds.length)
    (hall : ∀ p ∈ ds, p ≠ [] ∧ ∀ c ∈ p, c.isDigit = true) :
    versionRegexL (joinSegs ds) = true := by
  have hdot : ∀ p ∈ ds, ∀ c ∈ p, c ≠ '.' := by
    intro p hp c hc heq
    have h := (hall p hp).2 c hc
    rw [heq] at h
    exact absurd h (by decide)
  have hnh : ∀ c ∈ joinSegs ds, c ≠ '-' := by
    intro c hc heq
    rcases mem_joinWith hc with h | ⟨p, hp, hcp⟩
    · rw [heq] at h
      exact absurd h (by decide)
    · have h := (hall p hp).2 c hcp
      rw [heq] at h
      exact absurd h (by decide)
  have h1 : splitFirst '-' (joinSegs ds) = none := splitFirst_eq_none hnh
  have hne : ds ≠ [] := by
    intro h
    rw [h] at h2
    simp at h2
  have h3 : splitOnChar '.' (joinSegs ds) = ds := splitOnChar_join hne hdot
  unfold versionRegexL versionCore
  rw [h1]
  simp only [h3, List.all_eq_true, Bool.and_eq_true, decide_eq_true_eq]
  refine ⟨h2, fun p hp => ?_⟩
  rcases hall p hp with ⟨hne', hdig⟩
  constructor
  · cases p with
    | nil => exact absurd rfl hne'
    | cons a q => rfl
  · exact hdig

/-- One unfolding step of the parseNuGetPackage scan loop. -/
theorem nugetScan_succ (parts : List (List Char)) (j : Nat) (vsi : Option Nat) :
    nugetScan parts (j + 1) vsi =
      if versionRegexL (joinSegs (parts.drop j)) then nugetScan parts j (some j)
      else
        match vsi with
        | some v => some v
        | none => nugetScan parts j none := rfl


/-- C1: For every NuGet filename of the form N1.N2....Nk.maj.min.patch.nupkg
(name segments non-empty and dot-free, version segments non-empty digit
runs), when maj.min.patch is the longest run of trailing period-delimited
segments whose concatenation matches the numeric-dotted version pattern
(no earlier trailing join matches), parseNuGetPackage returns name
N1.N2....Nk and version maj.min.patch. -/
theorem nuget_wellformed_split
    (ns : List (List Char)) (ma mi pa : List Char)
    (hns : ns ≠ [])
    (hseg : ∀ s ∈ ns, s ≠ [] ∧ ∀ c ∈ s, c ≠ '.')
    (hma : ma ≠ [] ∧ ∀ c ∈ ma, c.isDigit = true)
    (hmi : mi ≠ [] ∧ ∀ c ∈ mi, c.isDigit = true)
    (hpa : pa ≠ [] ∧ ∀ c ∈ pa, c.isDigit = true)
    (hlongest : ∀ i, i < ns.length →
      versionRegexL (joinSegs ((ns ++ [ma, mi, pa]).drop i)) = false) :
    parseNuGetPackage (joinSegs (ns ++ [ma, mi, pa]) ++ ".nupkg".data)
      = .ok (joinSegs ns, ma ++ '.' :: (mi ++ '.' :: pa)) := by
  set parts0 := ns ++ [ma, mi, pa] with hparts0
  have hdigseg : ∀ p ∈ [ma, mi, pa], p ≠ [] ∧ ∀ c ∈ p, c.isDigit = true := by
    intro p hp
    simp only [List.mem_cons, List.not_mem_nil, or_false] at hp
    rcases hp with rfl | rfl | rfl
    exacts [hma, hmi, hpa]
  have hb1 : trimSuffix (joinSegs parts0 ++ ".nupkg".data) (".nupkg".data) = joinSegs parts0 :=
    trimSuffix_append _ _
  have hjoin_last : joinSegs parts0 = joinSegs (ns ++ [ma, mi]) ++ '.' :: pa := by
    have he : parts0 = (ns ++ [ma, mi]) ++ [pa] := by simp [hparts0]
    rw [he]
    exact joinWith_append_single '.' _ pa (by simp)
  have hlastchar : (joinSegs parts0).getLast? = pa.getLast? := by
    rw [hjoin_last, List.getLast?_append_of_ne_nil _ (by simp)]
    rw [show ('.' :: pa) = ['.'] ++ pa from rfl, List.getLast?_append_of_ne_nil _ hpa.1]
  have hnsuf : ¬ ((".NUPKG".data) <:+ joinSegs parts0) := by
    intro h
    have h1 := suffix_getLast h (by decide)
    rw [hlastchar] at h1
    have hG : pa.getLast? = some 'G' := by rw [h1]; rfl
    have hmem := List.mem_of_mem_getLast? hG
    have hdigG := hpa.2 'G' hmem
    exact absurd hdigG (by decide)
  have hb2 : trimSuffix (joinSegs parts0) (".NUPKG".data) = joinSegs parts0 :=
    trimSuffix_of_not_suffix hnsuf
  have hdotfree : ∀ p ∈ parts0, ∀ c ∈ p, c ≠ '.' := by
    intro p hp
    rw [hparts0] at hp
    rcases List.mem_append.mp hp with hp2 | hp2
    · exact (hseg p hp2).2
    · intro c hc heq
      have h := (hdigseg p hp2).2 c hc
      rw [heq] at h
      exact absurd h (by decide)
  have hsplit : splitOnChar '.' (joinSegs parts0) = parts0 :=
    splitOnChar_join (by simp [hparts0]) hdotfree
  have hlen : parts0.length = ns.length + 3 := by simp [hparts0]
  obtain ⟨k, hk⟩ : ∃ k, ns.length = k + 1 := by
    cases ns with
    | nil => exact absurd rfl hns
    | cons a b => exact ⟨b.length, by simp⟩
  have hd2 : parts0.drop (ns.length + 2) = [pa] := by
    rw [hparts0, drop_append_len]
    rfl
  have hd1 : parts0.drop (ns.length + 1) = [mi, pa] := by
    rw [hparts0, drop_append_len]
    rfl
  have hd0 : parts0.drop ns.length = [ma, mi, pa] := by
    have h := drop_append_len ns [ma, mi, pa] 0
    rw [Nat.add_zero, List.drop_zero] at h
    rw [hparts0, h]
  have cond1 : versionRegexL (joinSegs (parts0.drop (ns.length + 2))) = false := by
    rw [hd2]
    exact versionRegexL_digits_false hpa.2
  have cond2 : versionRegexL (joinSegs (parts0.drop (ns.length + 1))) = true := by
    rw [hd1]
    refine versionRegexL_join_digits (by simp) ?_
    intro p hp
    simp only [List.mem_cons, List.not_mem_nil, or_false] at hp
    rcases hp with rfl | rfl
    exacts [hmi, hpa]
  have cond3 : versionRegexL (joinSegs (parts0.drop ns.length)) = true := by
    rw [hd0]
    exact versionRegexL_join_digits (by simp) hdigseg
  have cond4 : versionRegexL (joinSegs (parts0.drop k)) = false :=
    hlongest k (by omega)
  have s1 : nugetScan parts0 (ns.length + 3) none = nugetScan parts0 (ns.length + 2) none := by
    rw [show ns.length + 3 = (ns.length + 2) + 1 from rfl, nugetScan_succ, cond1]
    simp
  have s2 : nugetScan parts0 (ns.length + 2) none
      = nugetScan parts0 (ns.length + 1) (some (ns.length + 1)) := by
    rw [show ns.length + 2 = (ns.length + 1) + 1 from rfl, nugetScan_succ, cond2]
    simp
  have s3 : nugetScan parts0 (ns.length + 1) (some (ns.length + 1))
      = nugetScan parts0 ns.length (some ns.length) := by
    rw [nugetScan_succ, cond3]
    simp
  have s4 : nugetScan parts0 ns.length (some ns.length) = some ns.length := by
    rw [hk, nugetScan_succ, cond4]
    simp
  have htake : parts0.take ns.length = ns := by
    rw [hparts0]
    exact List.take_left ns _
  simp only [parseNuGetPackage]
  rw [hb1, hb2, hsplit, hlen]
  rw [if_neg (by omega)]
  rw [s1, s2, s3, s4]
  rw [htake, hd0]
  rfl


/-- C1 witness: Microsoft.AspNetCore.Identity.3.1.10.nupkg yields name
Microsoft.AspNetCore.Identity and version 3.1.10, by the theorem applied
at that input. -/
theorem nuget_wellformed_split_witness :
    parseNuGetPackage ("Microsoft.AspNetCore.Identity.3.1.10.nupkg".data)
      = .ok ("Microsoft.AspNetCore.Identity".data, "3.1.10".data) := by
  have h := nuget_wellformed_split
    ["Microsoft".data, "AspNetCore".data, "Identity".data]
    ("3".data) ("1".data) ("10".data)
    (by decide) (by decide) (by decide) (by decide) (by decide) (by decide)
  exact h

/-- strings.Split never returns an empty slice. -/
theorem splitOnChar_ne_nil (sep : Char) (l : List Char) : splitOnChar sep l ≠ [] := by
  cases l with
  | nil => simp [splitOnChar]
  | cons c rest =>
    simp only [splitOnChar]
    by_cases hc : c = sep
    · simp [hc]
    · simp only [hc, if_false]
      rcases h : splitOnChar sep rest with _ | ⟨a, b⟩ <;> simp

/-- Partition of a list by success of an option-valued function. -/
theorem filterMap_length_partition {α β : Type} (f : α → Option β) (l : List α) :
    (l.filterMap f).length + (l.filter fun x => (f x).isNone).length = l.length := by
  induction l with
  | nil => rfl
  | cons a t ih =>
    rcases h : f a with _ | b <;>
      simp [List.filterMap_cons, h, List.filter_cons] <;> omega

/-- To prove something of every decomposition l = p1 ++ - :: p2 it is
enough to prove it at every hyphen position of l. -/
theorem forall_hyphen_split {l : List Char} {P : List Char → List Char → Prop}
    (h : ∀ i, (hi : i < l.length) → l.get ⟨i, hi⟩ = '-' → P (l.take i) (l.drop (i + 1))) :
    ∀ p1 p2, l = p1 ++ '-' :: p2 → P p1 p2 := by
  intro p1 p2 heq
  have hlen : p1.length < l.length := by
    rw [heq]
    simp
  have hget : l.get ⟨p1.length, hlen⟩ = '-' := by
    subst heq
    rw [List.get_append_right] <;> simp
  have htake : l.take p1.length = p1 := by
    rw [heq]
    exact List.take_left _ _
  have hdrop : l.drop (p1.length + 1) = p2 := by
    rw [heq]
    have hd := drop_append_len p1 ('-' :: p2) 1
    simpa using hd
  have hp := h p1.length hlen hget
  rw [htake, hdrop] at hp
  exact hp

/-- Every identity built by ExtractPackageInfo carries the scanner's
ecosystem. -/
theorem ExtractPackageInfo_ecosystem {ps : PackageScanner} {f : List Char}
    {pkg : PackageInfo} (h : ExtractPackageInfo ps f = .ok pkg) :
    pkg.Ecosystem = ps.Ecosystem := by
  unfold ExtractPackageInfo at h
  rcases hp : parserFor (toLowerL ps.FileExtension) f with e | nv
  · rw [hp] at h
    simp [Except.map] at h
  · rw [hp] at h
    simp only [Except.map] at h
    cases h
    rfl

/-- Every identity returned by the walk carries the scanner's ecosystem. -/
theorem scanEntries_ecosystem (ps : PackageScanner) (files : List DirEntry) :
    ∀ pkg ∈ (scanEntries ps files).1, pkg.Ecosystem = ps.Ecosystem := by
  induction files with
  | nil => simp [scanEntries]
  | cons e rest ih =>
    intro pkg hm
    simp only [scanEntries] at hm
    by_cases hd : e.isDir
    · rw [if_pos hd] at hm
      exact ih pkg hm
    · rw [if_neg hd] at hm
      by_cases hs : suffixAccept ps.FileExtension e.name = true
      · rw [if_pos hs] at hm
        rcases hx : ExtractPackageInfo ps e.name with msg | pkg2
        · rw [hx] at hm
          exact ih pkg hm
        · rw [hx] at hm
          simp only [List.mem_cons] at hm
          rcases hm with rfl | hm
          · exact ExtractPackageInfo_ecosystem hx
          · exact ih pkg hm
      · rw [if_neg hs] at hm
        exact ih pkg hm

/-- The walk result, characterized: successes in order, warnings in order,
both filtered from the matching entries. -/
theorem scanEntries_eq (ps : PackageScanner) (files : List DirEntry) :
    scanEntries ps files =
      (((files.filter fun e => !e.isDir && suffixAccept ps.FileExtension e.name).filterMap
          fun e => (ExtractPackageInfo ps e.name).toOption),
       (((files.filter fun e => !e.isDir && suffixAccept ps.FileExtension e.name).filter
          fun e => (ExtractPackageInfo ps e.name).toOption.isNone).map DirEntry.name)) := by
  induction files with
  | nil => rfl
  | cons e rest ih =>
    simp only [scanEntries, ih]
    by_cases hd : e.isDir
    · simp [hd, List.filter_cons]
    · by_cases hs : suffixAccept ps.FileExtension e.name = true
      · rcases hx : ExtractPackageInfo ps e.name with msg | pkg2 <;>
          simp [hd, hs, List.filter_cons, List.filterMap_cons, hx, Except.toOption]
      · simp [hd, hs, List.filter_cons]

/-- C2 counterexample: extraction succeeds on the PyPI filename
-1.2.3.whl yet returns an identity whose name is empty, so a successful
extraction does not guarantee non-empty name and version. -/
theorem extraction_empty_name_counterexample :
    ExtractPackageInfo (NewPackageScanner ("whl".data) []) ("-1.2.3.whl".data)
      = .ok { Name := [], Version := "1.2.3".data, Ecosystem := "PyPI".data } := by
  rfl

/-- C2 amended: successful extraction does not guarantee non-empty
components: PyPI -1.2.3.whl yields an identity with empty name, foo-.whl
one with empty version; the PyPI parser fails exactly when the stripped
base contains no hyphen (a structural check, not an emptiness check). -/
theorem extraction_structural_only :
    ExtractPackageInfo (NewPackageScanner ("whl".data) []) ("-1.2.3.whl".data)
      = .ok { Name := [], Version := "1.2.3".data, Ecosystem := "PyPI".data }
    ∧ ExtractPackageInfo (NewPackageScanner ("whl".data) []) ("foo-.whl".data)
      = .ok { Name := "foo".data, Version := [], Ecosystem := "PyPI".data }
    ∧ ∀ l : List Char,
        (parsePythonPackage l = .error ("invalid Python package filename: ".data ++ l) ↔
          splitFirst '-'
            (trimSuffix (trimSuffix (trimSuffix (trimSuffix l (".whl".data)) (".WHL".data))
              (".egg".data)) (".EGG".data)) = none) := by
  refine ⟨by rfl, by rfl, fun l => ?_⟩
  unfold parsePythonPackage
  rcases h : splitFirst '-'
      (trimSuffix (trimSuffix (trimSuffix (trimSuffix l (".whl".data)) (".WHL".data))
        (".egg".data)) (".EGG".data)) with _ | nv
  · simp [h]
  · simp [h]

/-- C10: ScanDirectory admits mixed-case extension spellings that the
parsers never strip: lodash-4.17.15.Tgz passes the case-insensitive
suffix filter but the npm parser, which strips only .tgz/.TGZ/.tar.gz/
.TAR.GZ, fails on it; Microsoft.AspNetCore.Identity.3.1.10.Nupkg passes
the filter for nupkg and the NuGet parser folds the unstripped extension
text into the returned version. -/
theorem mixedcase_extension_handling :
    suffixAccept ("tgz".data) ("lodash-4.17.15.Tgz".data) = true
    ∧ parseNpmPackage ("lodash-4.17.15.Tgz".data)
        = .error ("could not extract version from npm package: ".data ++ "lodash-4.17.15.Tgz".data)
    ∧ ScanDirectory (NewPackageScanner ("tgz".data) ("npm".data))
        (RootStat.dir [{ name := "lodash-4.17.15.Tgz".data, isDir := false }])
        = .ok ([], ["lodash-4.17.15.Tgz".data])
    ∧ suffixAccept ("nupkg".data) ("Microsoft.AspNetCore.Identity.3.1.10.Nupkg".data) = true
    ∧ parseNuGetPackage ("Microsoft.AspNetCore.Identity.3.1.10.Nupkg".data)
        = .ok ("Microsoft.AspNetCore.Identity.3.1".data, "10.Nupkg".data) := by
  exact ⟨by rfl, by rfl, by rfl, by rfl, by rfl⟩

/-- C5 counterexample: a directory scan run with the configured ecosystem
hint "NuGet" (the flag default) over tgz files produces identities whose
ecosystem field is "NuGet", while the extension table maps tgz to "npm":
re-deriving the ecosystem from the file extension does not match. -/
theorem ecosystem_roundtrip_counterexample :
    ScanDirectory (NewPackageScanner ("tgz".data) ("NuGet".data))
        (RootStat.dir [{ name := "lodash-4.17.15.tgz".data, isDir := false }])
      = .ok ([{ Name := "lodash".data, Version := "4.17.15".data, Ecosystem := "NuGet".data }], [])
    ∧ determineEcosystem ("tgz".data) = "npm".data
    ∧ ("NuGet".data : List Char) ≠ "npm".data := by
  exact ⟨by rfl, by rfl, by decide⟩

/-- C5 amended: when the configured ecosystem hint is empty, every
identity produced by a directory scan carries exactly the table ecosystem
of the configured extension; with a non-empty hint the identities carry
the hint verbatim, which need not match the table. -/
theorem ecosystem_roundtrip_empty_hint (ext : List Char) (files : List DirEntry)
    (pkgs : List PackageInfo) (warns : List (List Char))
    (h : ScanDirectory (NewPackageScanner ext []) (RootStat.dir files) = .ok (pkgs, warns)) :
    ∀ pkg ∈ pkgs, pkg.Ecosystem = determineEcosystem (trimPrefixL ext (".".data)) := by
  intro pkg hm
  have hse : scanEntries (NewPackageScanner ext []) files = (pkgs, warns) := by
    simpa [ScanDirectory] using h
  have hmem : pkg ∈ (scanEntries (NewPackageScanner ext []) files).1 := by
    rw [hse]
    exact hm
  have heco := scanEntries_ecosystem (NewPackageScanner ext []) files pkg hmem
  rw [heco]
  rfl

/-- C5 amended witness: with an empty hint and extension tgz the single
lodash identity indeed carries determineEcosystem(tgz) = npm. -/
theorem ecosystem_roundtrip_empty_hint_witness :
    ScanDirectory (NewPackageScanner ("tgz".data) []) (RootStat.dir
        [{ name := "lodash-4.17.15.tgz".data, isDir := false }])
      = .ok ([{ Name := "lodash".data, Version := "4.17.15".data, Ecosystem := "npm".data }], [])
    ∧ ({ Name := "lodash".data, Version := "4.17.15".data, Ecosystem := "npm".data } : PackageInfo).Ecosystem
      = determineEcosystem (trimPrefixL ("tgz".data) (".".data)) := by
  have h : ScanDirectory (NewPackageScanner ("tgz".data) []) (RootStat.dir
        [{ name := "lodash-4.17.15.tgz".data, isDir := false }])
      = .ok ([{ Name := "lodash".data, Version := "4.17.15".data, Ecosystem := "npm".data }], []) := by
    rfl
  exact ⟨h, ecosystem_roundtrip_empty_hint _ _ _ _ h _ (by simp)⟩

/-- C9: over any walked directory, ScanDirectory returns exactly the
identities of the matching-extension files that parse (in traversal
order), warns once per matching file that fails to parse, and the number
of identities plus the number of warnings equals the number of
matching-extension files: malformed names are skipped, never aborting the
walk. -/
theorem scanDirectory_partition (ps : PackageScanner) (files : List DirEntry) :
    ScanDirectory ps (RootStat.dir files)
      = .ok (((files.filter fun e => !e.isDir && suffixAccept ps.FileExtension e.name).filterMap
                fun e => (ExtractPackageInfo ps e.name).toOption),
             (((files.filter fun e => !e.isDir && suffixAccept ps.FileExtension e.name).filter
                fun e => (ExtractPackageInfo ps e.name).toOption.isNone).map DirEntry.name))
    ∧ (scanEntries ps files).1.length + (scanEntries ps files).2.length
        = (files.filter fun e => !e.isDir && suffixAccept ps.FileExtension e.name).length := by
  constructor
  · show Except.ok (scanEntries ps files) = _
    rw [scanEntries_eq]
  · rw [scanEntries_eq]
    simp only []
    rw [List.length_map]
    exact filterMap_length_partition _ _

/-- C3: for a controller built by NewController, SaveVulnerabilityResults
is invoked for an outcome - in the directory-scan worker and in the
single-package scan alike - if and only if persistence (UseDB) is enabled,
the lookup returned no error, and the vulnerability list is non-empty. -/
theorem save_iff_vulns (u k : Bool) (c : ControllerModel)
    (hc : NewController u k = some c)
    (lookup : Except (List Char) (List Vulnerability)) (saveOk : Bool) :
    (ScanAction.saveDB ∈ processPackage c.useDB c.dbPresent lookup saveOk ↔
      c.useDB = true ∧ ∃ vs, lookup = .ok vs ∧ vs ≠ [])
    ∧ (ScanAction.saveDB ∈ runSinglePackageScanActions c.useDB c.dbPresent lookup saveOk ↔
      c.useDB = true ∧ ∃ vs, lookup = .ok vs ∧ vs ≠ []) := by
  have hdb : c.useDB = true → c.dbPresent = true := by
    cases u with
    | false =>
      simp [NewController] at hc
      rw [← hc]
      intro h
      simp at h
    | true =>
      cases k with
      | false => simp [NewController] at hc
      | true =>
        simp [NewController] at hc
        rw [← hc]
        intro _
        rfl
  rcases lookup with e | vs
  · constructor <;> simp [processPackage, runSinglePackageScanActions]
  · by_cases hu : c.useDB = true
    · have hdbp := hdb hu
      by_cases hv : vs = []
      · subst hv
        constructor <;>
          simp [processPackage, runSinglePackageScanActions, hu, hdbp] <;>
          cases saveOk <;> simp
      · constructor <;>
          simp [processPackage, runSinglePackageScanActions, hu, hdbp, hv,
            List.length_pos] <;>
          cases saveOk <;> simp [hv]
    · have hu2 : c.useDB = false := by
        revert hu
        cases c.useDB <;> simp
      constructor <;> simp [processPackage, runSinglePackageScanActions, hu2]

/-- C3 witness: with UseDB on, a connected database and a one-element
vulnerability list, the directory-scan worker does call SaveVulnerabilityResults. -/
theorem save_iff_vulns_witness :
    NewController true true = some { useDB := true, dbPresent := true }
    ∧ ScanAction.saveDB ∈ processPackage true true
        (.ok [{ severity := [], dbSpecific := { severity := [] } }]) true := by
  have hc : NewController true true = some { useDB := true, dbPresent := true } := rfl
  refine ⟨hc, ?_⟩
  have h := (save_iff_vulns true true { useDB := true, dbPresent := true } hc
    (.ok [{ severity := [], dbSpecific := { severity := [] } }]) true).1
  exact h.mpr ⟨rfl, [{ severity := [], dbSpecific := { severity := [] } }], rfl, by simp⟩

/-- C4: in a directory-scan batch with concurrency cap C, every reachable
scheduler state has at most C lookups in flight, dispatched work is
conserved, and the summary can only have been printed once every
dispatched lookup has finished (done = N). -/
theorem batch_concurrency_bound (C N : Nat) (s : BatchState)
    (h : BatchReachable C N s) :
    s.inFlight ≤ C ∧ s.toDispatch + s.inFlight + s.done = N
      ∧ (s.summaried = true → s.done = N) := by
  induction h with
  | refl => simp
  | tail hab hstep ih =>
    rcases ih with ⟨ih1, ih2, ih3⟩
    cases hstep with
    | dispatch t f d hf =>
      refine ⟨hf, ?_, ?_⟩
      · simp only [] at ih2 ⊢
        omega
      · intro hsum
        simp at hsum
    | finish t f d =>
      refine ⟨by simp only [] at ih1 ⊢; omega, ?_, ?_⟩
      · simp only [] at ih2 ⊢
        omega
      · intro hsum
        simp at hsum
    | summarize d =>
      refine ⟨by simpa using ih1, by simpa using ih2, fun _ => ?_⟩
      simp only [] at ih2 ⊢
      omega

/-- C4 witness: a complete one-package batch at cap 1 - dispatch, finish,
summarize - stays within the bound and ends with done = 1. -/
theorem batch_concurrency_bound_witness :
    BatchReachable 1 1 { toDispatch := 0, inFlight := 0, done := 1, summaried := true }
    ∧ ({ toDispatch := 0, inFlight := 0, done := 1, summaried := true } : BatchState).inFlight ≤ 1
    ∧ ({ toDispatch := 0, inFlight := 0, done := 1, summaried := true } : BatchState).toDispatch
        + ({ toDispatch := 0, inFlight := 0, done := 1, summaried := true } : BatchState).inFlight
        + ({ toDispatch := 0, inFlight := 0, done := 1, summaried := true } : BatchState).done = 1
    ∧ (({ toDispatch := 0, inFlight := 0, done := 1, summaried := true } : BatchState).summaried = true →
        ({ toDispatch := 0, inFlight := 0, done := 1, summaried := true } : BatchState).done = 1) := by
  have hr : BatchReachable 1 1 { toDispatch := 0, inFlight := 0, done := 1, summaried := true } :=
    Relation.ReflTransGen.tail
      (Relation.ReflTransGen.tail
        (Relation.ReflTransGen.tail Relation.ReflTransGen.refl
          (BatchStep.dispatch 0 0 0 (by decide)))
        (BatchStep.finish 0 0 0))
      (BatchStep.summarize 1)
  refine ⟨hr, ?_⟩
  exact batch_concurrency_bound 1 1 _ hr

/-- C6 amended: GetSeverityRating prefers the first CVSS_V3 entry: for a
non-empty vector it returns the capped heuristic 3(#:H)+2(#:M)+1(#:L)
formatted X.X/10, while an entry whose vector string is empty yields
"N/A"; with no CVSS_V3 entry it buckets the uppercased textual label
(CRITICAL, HIGH, MEDIUM, LOW) and otherwise returns Unknown. -/
theorem getSeverityRating_spec (vuln : Vulnerability) :
    (∀ sc, findCVSS vuln.severity = some sc → sc ≠ [] →
      GetSeverityRating vuln
        = fmtScore (min (3 * countSub sc (":H".data) + 2 * countSub sc (":M".data)
            + countSub sc (":L".data)) 10))
    ∧ (∀ sc, findCVSS vuln.severity = some sc → sc = [] →
      GetSeverityRating vuln = "N/A".data)
    ∧ (findCVSS vuln.severity = none →
      GetSeverityRating vuln =
        (if vuln.dbSpecific.severity = [] then "Unknown".data
         else if toUpperL vuln.dbSpecific.severity = "CRITICAL".data then "9.0+/10".data
         else if toUpperL vuln.dbSpecific.severity = "HIGH".data then "7.0-8.9/10".data
         else if toUpperL vuln.dbSpecific.severity = "MEDIUM".data then "4.0-6.9/10".data
         else if toUpperL vuln.dbSpecific.severity = "LOW".data then "0.1-3.9/10".data
         else "Unknown".data)) := by
  constructor
  · intro sc hfind hne
    unfold GetSeverityRating
    rw [hfind]
    show ExtractCVSSScore sc = _
    simp only [ExtractCVSSScore]
    rw [if_neg (by simp [List.length_eq_zero, hne])]
    rw [if_neg (by
      have h := splitOnChar_ne_nil '/' sc
      have h2 := List.length_pos.mpr h
      omega)]
    have hmin : (if 10 < 3 * countSub sc (":H".data) + 2 * countSub sc (":M".data)
          + 1 * countSub sc (":L".data) then 10
        else 3 * countSub sc (":H".data) + 2 * countSub sc (":M".data)
          + 1 * countSub sc (":L".data))
        = min (3 * countSub sc (":H".data) + 2 * countSub sc (":M".data)
            + countSub sc (":L".data)) 10 := by
      rcases Nat.lt_or_ge 10 (3 * countSub sc (":H".data) + 2 * countSub sc (":M".data)
          + countSub sc (":L".data)) with hlt | hge
      · rw [if_pos (by omega), Nat.min_eq_right (Nat.le_of_lt hlt)]
      · rw [if_neg (by omega), Nat.min_eq_left hge]
        omega
    rw [hmin]
  constructor
  · intro sc hfind hsc
    unfold GetSeverityRating
    rw [hfind]
    show ExtractCVSSScore sc = _
    subst hsc
    rfl
  · intro hnone
    unfold GetSeverityRating
    rw [hnone]
    by_cases hemp : vuln.dbSpecific.severity = []
    · simp [hemp]
    · simp [hemp]

/-- C6 witness: a CVSS v3 vector with exactly two :H tokens and no :M/:L
tokens rates as 6.0/10, by the theorem applied at that vulnerability. -/
theorem getSeverityRating_spec_witness :
    findCVSS [{ sevType := "CVSS_V3".data, score := "CVSS:3.1/C:H/I:H".data }]
      = some ("CVSS:3.1/C:H/I:H".data)
    ∧ ("CVSS:3.1/C:H/I:H".data : List Char) ≠ []
    ∧ GetSeverityRating
        { severity := [{ sevType := "CVSS_V3".data, score := "CVSS:3.1/C:H/I:H".data }],
          dbSpecific := { severity := [] } }
      = "6.0/10".data := by
  refine ⟨rfl, by decide, ?_⟩
  have h := (getSeverityRating_spec
    { severity := [{ sevType := "CVSS_V3".data, score := "CVSS:3.1/C:H/I:H".data }],
      dbSpecific := { severity := [] } }).1
    ("CVSS:3.1/C:H/I:H".data) rfl (by decide)
  rw [h]
  rfl

/-- C6 counterexample: a CVSS_V3 entry whose vector string is empty is an
entry present, yet GetSeverityRating returns "N/A", not the formatted
heuristic "0.0/10" the claim prescribes for a present vector entry and
not a textual-label bucket either. -/
theorem severity_na_counterexample :
    GetSeverityRating
        { severity := [{ sevType := "CVSS_V3".data, score := [] }],
          dbSpecific := { severity := [] } }
      = "N/A".data
    ∧ ("N/A".data : List Char) ≠ "0.0/10".data := by
  exact ⟨by rfl, by decide⟩

/-- The npm find returns the tail of the leftmost hyphen whose remainder
matches the end-anchored version pattern. -/
theorem npmFindVersion_eq_some {p v : List Char} (hv : npmTail v = true)
    (hleft : ∀ p1 p2, p = p1 ++ '-' :: p2 → npmTail (p2 ++ '-' :: v) = false) :
    npmFindVersion (p ++ '-' :: v) = some v := by
  induction p with
  | nil =>
    simp only [List.nil_append, npmFindVersion]
    simp [hv]
  | cons c p' ih =>
    have ih' := ih (fun p1 p2 hp => hleft (c :: p1) p2 (by rw [hp]; rfl))
    simp only [List.cons_append, npmFindVersion]
    by_cases hc : c = '-'
    · subst hc
      have hf := hleft [] p' rfl
      simp [hf, ih']
    · simp [hc, ih']

/-- The npm find fails exactly when no hyphen decomposition matches. -/
theorem npmFindVersion_none_iff (l : List Char) :
    npmFindVersion l = none ↔ ∀ p v, l = p ++ '-' :: v → npmTail v = false := by
  induction l with
  | nil =>
    constructor
    · intro _ p v hpv
      exact absurd hpv (by simp)
    · intro _
      rfl
  | cons c rest ih =>
    simp only [npmFindVersion]
    constructor
    · intro h p v hpv
      by_cases hcond : (c = '-' && npmTail rest) = true
      · rw [if_pos hcond] at h
        exact absurd h (by simp)
      · rw [if_neg hcond] at h
        cases p with
        | nil =>
          simp only [List.nil_append, List.cons.injEq] at hpv
          rcases hpv with ⟨hc, hv⟩
          subst hc
          subst hv
          simpa using hcond
        | cons c2 p' =>
          simp only [List.cons_append, List.cons.injEq] at hpv
          exact (ih.mp h) p' v hpv.2
    · intro h
      have hcond : ¬ ((c = '-' && npmTail rest) = true) := by
        by_cases hc : c = '-'
        · subst hc
          simp [h [] rest rfl]
        · simp [hc]
      rw [if_neg hcond]
      exact ih.mpr (fun p v hpv => h (c :: p) v (by simp [hpv]))

/-- The Java find returns the greedy match at the leftmost hyphen whose
remainder starts with the pattern. -/
theorem javaFind_eq_some {p t v : List Char} (hm : javaMatchAt t = some v)
    (hleft : ∀ p1 p2, p = p1 ++ '-' :: p2 → javaMatchAt (p2 ++ '-' :: t) = none) :
    javaFind (p ++ '-' :: t) = some v := by
  induction p with
  | nil =>
    simp only [List.nil_append, javaFind]
    simp [hm]
  | cons c p' ih =>
    have ih' := ih (fun p1 p2 hp => hleft (c :: p1) p2 (by rw [hp]; rfl))
    simp only [List.cons_append, javaFind]
    by_cases hc : c = '-'
    · subst hc
      have hf := hleft [] p' rfl
      simp [hf, ih']
    · simp [hc, ih']

/-- The Java find fails exactly when no hyphen decomposition matches. -/
theorem javaFind_none_iff (l : List Char) :
    javaFind l = none ↔ ∀ p t, l = p ++ '-' :: t → javaMatchAt t = none := by
  induction l with
  | nil =>
    constructor
    · intro _ p t hpt
      exact absurd hpt (by simp)
    · intro _
      rfl
  | cons c rest ih =>
    simp only [javaFind]
    by_cases hc : c = '-'
    · subst hc
      rw [if_pos rfl]
      rcases hmt : javaMatchAt rest with _ | v
      · constructor
        · intro h p t hpt
          cases p with
          | nil =>
            simp only [List.nil_append, List.cons.injEq] at hpt
            rw [← hpt.2]
            exact hmt
          | cons c2 p' =>
            simp only [List.cons_append, List.cons.injEq] at hpt
            exact (ih.mp h) p' t hpt.2
        · intro h
          exact ih.mpr (fun p t hpt => h ('-' :: p) t (by simp [hpt]))
      · constructor
        · intro h
          exact absurd h (by simp)
        · intro h
          exact absurd (h [] rest rfl) (by simp [hmt])
    · rw [if_neg hc]
      constructor
      · intro h p t hpt
        cases p with
        | nil =>
          simp only [List.nil_append, List.cons.injEq] at hpt
          exact absurd hpt.1 hc
        | cons c2 p' =>
          simp only [List.cons_append, List.cons.injEq] at hpt
          exact (ih.mp h) p' t hpt.2
      · intro h
        exact ih.mpr (fun p t hpt => h (c :: p) t (by simp [hpt]))

/-- C7 counterexample: b-1.2.3-4.5.6.tgz is of the form
name-maj.min.patch.tgz with name b-1.2.3, yet extraction returns name b
and version 1.2.3-4.5.6 (the leftmost hyphen whose tail matches wins, the
prerelease class absorbing the rest), not the claimed exact split. -/
theorem npm_exact_split_counterexample :
    parseNpmPackage ("b-1.2.3-4.5.6.tgz".data) = .ok ("b".data, "1.2.3-4.5.6".data)
    ∧ ("1.2.3-4.5.6".data : List Char) ≠ "4.5.6".data := by
  exact ⟨by rfl, by decide⟩

/-- C7 amended: extraction splits at the leftmost hyphen whose tail
matches maj.min.patch(-prerelease)? to the end of the stripped base - the
exact name/version split therefore holds whenever no hyphen inside the
name starts such a match - and extraction fails exactly when the stripped
base has no trailing hyphen-version pattern at all. -/
theorem parseNpm_leftmost_spec :
    (∀ p v : List Char, npmTail v = true →
      (∀ p1 p2, p = p1 ++ '-' :: p2 → npmTail (p2 ++ '-' :: v) = false) →
      ¬ ((".TGZ".data) <:+ (p ++ '-' :: v)) →
      ¬ ((".tar.gz".data) <:+ (p ++ '-' :: v)) →
      ¬ ((".TAR.GZ".data) <:+ (p ++ '-' :: v)) →
      parseNpmPackage (p ++ '-' :: (v ++ ".tgz".data)) = .ok (p, v))
    ∧ (∀ l : List Char,
        (∃ e, parseNpmPackage l = .error e) ↔
          ∀ p v, trimSuffix (trimSuffix (trimSuffix (trimSuffix l (".tgz".data)) (".TGZ".data))
              (".tar.gz".data)) (".TAR.GZ".data) = p ++ '-' :: v → npmTail v = false) := by
  constructor
  · intro p v hv hleft h1 h2 h3
    have he : p ++ '-' :: (v ++ ".tgz".data) = (p ++ '-' :: v) ++ ".tgz".data := by simp
    rw [he]
    simp only [parseNpmPackage]
    rw [trimSuffix_append]
    rw [trimSuffix_of_not_suffix h1, trimSuffix_of_not_suffix h2, trimSuffix_of_not_suffix h3]
    rw [npmFindVersion_eq_some hv hleft]
    show Except.ok (trimSuffix (p ++ '-' :: v) ('-' :: v), v) = Except.ok (p, v)
    rw [trimSuffix_append]
  · intro l
    constructor
    · rintro ⟨e, he⟩
      rw [← npmFindVersion_none_iff]
      simp only [parseNpmPackage] at he
      rcases hf : npmFindVersion (trimSuffix (trimSuffix (trimSuffix (trimSuffix l
          (".tgz".data)) (".TGZ".data)) (".tar.gz".data)) (".TAR.GZ".data)) with _ | v
      · rfl
      · rw [hf] at he
        exact absurd he (by simp)
    · intro h
      refine ⟨"could not extract version from npm package: ".data ++ l, ?_⟩
      have hnone := (npmFindVersion_none_iff (trimSuffix (trimSuffix (trimSuffix (trimSuffix l
          (".tgz".data)) (".TGZ".data)) (".tar.gz".data)) (".TAR.GZ".data))).mpr h
      simp only [parseNpmPackage, hnone]

/-- C7 witness: lodash-4.17.15.tgz, whose name contains no hyphen, splits
exactly into lodash and 4.17.15, by the theorem applied at that input. -/
theorem parseNpm_leftmost_spec_witness :
    npmTail ("4.17.15".data) = true
    ∧ parseNpmPackage ("lodash-4.17.15.tgz".data) = .ok ("lodash".data, "4.17.15".data) := by
  refine ⟨by rfl, ?_⟩
  have h := parseNpm_leftmost_spec.1 ("lodash".data) ("4.17.15".data) (by rfl)
    (forall_hyphen_split (by decide)) (by decide) (by decide) (by decide)
  exact h

/-- C8 counterexample: for foo-1.2x.jar the Java pattern matches -1.2
mid-string (not a suffix of the base), and the TrimSuffix of "-1.2" is a
no-op, so the returned name is the whole base foo-1.2x, not everything
before the matched hyphen. -/
theorem java_name_before_hyphen_counterexample :
    parseJavaPackage ("foo-1.2x.jar".data) = .ok ("foo-1.2x".data, "1.2".data)
    ∧ ("foo-1.2x".data : List Char) ≠ "foo".data := by
  exact ⟨by rfl, by decide⟩

/-- C8 amended: the version is the greedy match of the pattern at the
leftmost hyphen whose tail starts with digits.digits; the name is the base
with the "-version" suffix trimmed when the match ends the base and the
unchanged base otherwise; extraction fails exactly when no hyphen in the
stripped base starts a match. -/
theorem parseJava_leftmost_spec :
    (∀ p t v : List Char, javaMatchAt t = some v →
      (∀ p1 p2, p = p1 ++ '-' :: p2 → javaMatchAt (p2 ++ '-' :: t) = none) →
      ¬ ((".JAR".data) <:+ (p ++ '-' :: t)) →
      parseJavaPackage (p ++ '-' :: (t ++ ".jar".data))
        = .ok (trimSuffix (p ++ '-' :: t) ('-' :: v), v))
    ∧ (∀ l : List Char,
        (∃ e, parseJavaPackage l = .error e) ↔
          ∀ p t, trimSuffix (trimSuffix l (".jar".data)) (".JAR".data) = p ++ '-' :: t →
            javaMatchAt t = none) := by
  constructor
  · intro p t v hm hleft h1
    have he : p ++ '-' :: (t ++ ".jar".data) = (p ++ '-' :: t) ++ ".jar".data := by simp
    rw [he]
    simp only [parseJavaPackage]
    rw [trimSuffix_append]
    rw [trimSuffix_of_not_suffix h1]
    rw [javaFind_eq_some hm hleft]
  · intro l
    constructor
    · rintro ⟨e, he⟩
      rw [← javaFind_none_iff]
      simp only [parseJavaPackage] at he
      rcases hf : javaFind (trimSuffix (trimSuffix l (".jar".data)) (".JAR".data)) with _ | v
      · rfl
      · rw [hf] at he
        exact absurd he (by simp)
    · intro h
      refine ⟨"could not extract version from Java package: ".data ++ l, ?_⟩
      have hnone := (javaFind_none_iff (trimSuffix (trimSuffix l (".jar".data))
        (".JAR".data))).mpr h
      simp only [parseJavaPackage, hnone]

/-- C8 witness: commons-lang3-3.12.0.jar - the hyphen before lang3 does
not start a match, the one before 3.12.0 does and the match ends the base
- yields name commons-lang3 and version 3.12.0, by the theorem applied at
that input. -/
theorem parseJava_leftmost_spec_witness :
    javaMatchAt ("3.12.0".data) = some ("3.12.0".data)
    ∧ parseJavaPackage ("commons-lang3-3.12.0.jar".data)
        = .ok ("commons-lang3".data, "3.12.0".data) := by
  refine ⟨by rfl, ?_⟩
  have h := parseJava_leftmost_spec.1 ("commons-lang3".data) ("3.12.0".data) ("3.12.0".data)
    (by rfl) (forall_hyphen_split (by decide)) (by decide)
  exact h
